import Mathlib

/-!
Verification of the unconfirmed-transaction pool (`src/visor/unconfirmed.go`
of the skycoin repository) against its natural-language specification.

The pool's own code is embedded faithfully below.  The external `coin`
package (blockchain/ledger) is out of scope of the source excerpt; it is
modelled as an oracle structure `Blockchain` whose fields are exactly the
five collaborator contracts the spec lists for the ledger: consensus
validation, fee computation, the chain head, output construction, and
unspent-output lookup.  Hashes, addresses and opaque error values are
modelled as `Nat`; wall-clock instants (`time.Time`) and durations
(`time.Duration`, an `int64`) are modelled as `Int`, with `util.Now()`
turned into an explicit `now` parameter of each operation that reads the
clock.  Go maps become association lists with Go map semantics
(`mapGet` / `mapInsert` / `mapErase`).
-/

namespace Unconfirmed

/-- `coin.SHA256`: a content hash, opaque here. -/
abbrev SHA256 := Nat

/-- `coin.Address`: an address, opaque here. -/
abbrev Address := Nat

/-- `coin.Transaction`, reduced to the fields and methods this excerpt
reads: its content hash `t.Hash()`, serialized size `t.Size()`, output
hours `t.OutputHours()`, and input list `t.In` (hashes of the source
unspent outputs). -/
structure Transaction where
  hash : SHA256
  size : Nat
  outputHours : Nat
  inputs : List SHA256
deriving DecidableEq, Repr

/-- `coin.UxBody`: the body of an unspent output; only the owning address
is read by this excerpt. -/
structure UxBody where
  address : Address
  coins : Nat
  hours : Nat
deriving DecidableEq, Repr

/-- `coin.UxOut`: an unspent output. -/
structure UxOut where
  body : UxBody
deriving DecidableEq, Repr

/-- The ledger oracle: the external `coin.Blockchain` collaborator, as the
five contracts of spec section 6.  `verifyTransaction` is
`bc.VerifyTransaction` returning `none` for a nil error and `some e` for
an opaque non-nil error; `transactionFee` is `bc.TransactionFee`;
`headHash` is `bc.Head().Head`; `createUnspents` is
`coin.CreateUnspents(head, txn)`; `unspentGet` is `bc.Unspent.Get`. -/
structure Blockchain where
  verifyTransaction : Transaction → Option Nat
  transactionFee : Transaction → Except Nat Nat
  headHash : Nat
  createUnspents : Nat → Transaction → List UxOut
  unspentGet : SHA256 → Option UxOut

/-! ### Go map semantics over association lists -/

/-- Go map read `m[k]` (with the `ok` bit as `Option`). -/
def mapGet {β : Type} (m : List (Nat × β)) (k : Nat) : Option β :=
  match m with
  | [] => none
  | (k', v) :: rest => if k' = k then some v else mapGet rest k

/-- Go map write `m[k] = v`: replaces the binding in place if the key is
present, otherwise adds it. -/
def mapInsert {β : Type} (m : List (Nat × β)) (k : Nat) (v : β) :
    List (Nat × β) :=
  match m with
  | [] => [(k, v)]
  | (k', v') :: rest =>
    if k' = k then (k, v) :: rest else (k', v') :: mapInsert rest k v

/-- Go map delete `delete(m, k)`. -/
def mapErase {β : Type} (m : List (Nat × β)) (k : Nat) : List (Nat × β) :=
  m.filter (fun kv => kv.1 ≠ k)

/-! ### The pool-level policy check -/

/-- The error values the pool itself produces or passes through. -/
inductive TxnError where
  /-- "Transaction too large" -/
  | tooLarge
  /-- "Transaction fee minimum not met" -/
  | feeTooLow
  /-- an opaque error propagated unchanged from `bc.TransactionFee` -/
  | fromLedger (e : Nat)
deriving DecidableEq, Repr

/-- `VerifyTransaction(bc, t, maxSize, burnFactor)`: the pool-level policy
check, straight from the source. -/
def VerifyTransaction (bc : Blockchain) (t : Transaction) (maxSize : Int)
    (burnFactor : Nat) : Option TxnError :=
  if (t.size : Int) > maxSize then
    some .tooLarge
  else
    match bc.transactionFee t with
    | .error e => some (.fromLedger e)
    | .ok fee =>
      if burnFactor ≠ 0 ∧ t.outputHours / burnFactor > fee then
        some .feeTooLow
      else
        none

/-! ### The pool data model -/

/-- `UnconfirmedTxn`: one pending entry.  `Announced = 0` is
`util.ZeroTime()`. -/
structure UnconfirmedTxn where
  Txn : Transaction
  Received : Int
  Checked : Int
  Announced : Int
deriving DecidableEq, Repr

/-- `TxnUnspents`: map from transaction hash to its predicted unspents. -/
abbrev TxnUnspents := List (SHA256 × List UxOut)

/-- `UnconfirmedTxnPool`: the pending table and the predicted-unspent
index. -/
structure UnconfirmedTxnPool where
  Txns : List (SHA256 × UnconfirmedTxn)
  Unspent : TxnUnspents
deriving DecidableEq, Repr

/-- `NewUnconfirmedTxnPool()`. -/
def NewUnconfirmedTxnPool : UnconfirmedTxnPool := ⟨[], []⟩

/-- `SetAnnounced(h, t)`. -/
def SetAnnounced (p : UnconfirmedTxnPool) (h : SHA256) (t : Int) :
    UnconfirmedTxnPool :=
  match mapGet p.Txns h with
  | some tx => { p with Txns := mapInsert p.Txns h { tx with Announced := t } }
  | none => p

/-- `createUnconfirmedTxn(bcUnsp, t, addrs)`; `now` is the `util.Now()`
call in its body.  `bcUnsp` and `addrs` are parameters of the source
function that its body never reads. -/
def createUnconfirmedTxn (bcUnsp : SHA256 → Option UxOut) (t : Transaction)
    (addrs : List Address) (now : Int) : UnconfirmedTxn :=
  { Txn := t, Received := now, Checked := now, Announced := 0 }

/-- The error returned by `RecordTxn`: either the policy check's error or
the ledger's consensus error, each passed through unchanged. -/
inductive RecordError where
  | policy (e : TxnError)
  | consensus (e : Nat)
deriving DecidableEq, Repr

/-- `RecordTxn(bc, t, addrs, maxSize, burnFactor)`: validate, then insert
a new entry in both maps or refresh the timestamps of an existing one.
Returns `((err, alreadyExisted), newPool)`; `now` is `util.Now()`. -/
def RecordTxn (bc : Blockchain) (t : Transaction) (addrs : List Address)
    (maxSize : Int) (burnFactor : Nat) (now : Int)
    (p : UnconfirmedTxnPool) :
    (Option RecordError × Bool) × UnconfirmedTxnPool :=
  match VerifyTransaction bc t maxSize burnFactor with
  | some e => ((some (.policy e), false), p)
  | none =>
    match bc.verifyTransaction t with
    | some e => ((some (.consensus e), false), p)
    | none =>
      let h := t.hash
      match mapGet p.Txns h with
      | some ut =>
        ((none, true),
          { p with
            Txns := mapInsert p.Txns h { ut with Received := now, Checked := now } })
      | none =>
        ((none, false),
          { Txns := mapInsert p.Txns h (createUnconfirmedTxn bc.unspentGet t addrs now),
            Unspent := mapInsert p.Unspent h (bc.createUnspents bc.headHash t) })

/-- `RawTxns()`: the underlying transactions, in table iteration order. -/
def RawTxns (p : UnconfirmedTxnPool) : List Transaction :=
  p.Txns.map (fun kt => kt.2.Txn)

/-- `removeTxn(bc, txHash)`: delete one hash from both maps. -/
def removeTxn (p : UnconfirmedTxnPool) (txHash : SHA256) :
    UnconfirmedTxnPool :=
  { Txns := mapErase p.Txns txHash, Unspent := mapErase p.Unspent txHash }

/-- `removeTxns(bc, hashes)`: delete each hash from both maps. -/
def removeTxns (p : UnconfirmedTxnPool) (hashes : List SHA256) :
    UnconfirmedTxnPool :=
  hashes.foldl (fun p h =>
    { Txns := mapErase p.Txns h, Unspent := mapErase p.Unspent h }) p

/-- `RemoveTransactions(bc, txns)`: delete the given transactions' hashes
from both maps. -/
def RemoveTransactions (p : UnconfirmedTxnPool) (txns : List Transaction) :
    UnconfirmedTxnPool :=
  removeTxns p (txns.map Transaction.hash)

/-- The body of `Refresh`'s loop for one entry `t`: `none` means the
entry is marked for removal, `some t'` is what the table holds for it
after the scan. -/
def refreshEntry (bc : Blockchain) (now checkPeriod maxAge : Int)
    (t : UnconfirmedTxn) : Option UnconfirmedTxn :=
  if now - t.Received ≥ maxAge then
    none
  else if now - t.Checked ≥ checkPeriod then
    if bc.verifyTransaction t.Txn = none then
      some { t with Checked := now }
    else
      none
  else
    some t

/-- `Refresh(bc, checkPeriod, maxAge)`: scan every entry, updating
`Checked` in place on successful re-validation and collecting the hashes
to remove; the collected removals are applied after the scan via
`removeTxns`.  `now` is `util.Now()`. -/
def Refresh (bc : Blockchain) (checkPeriod maxAge : Int) (now : Int)
    (p : UnconfirmedTxnPool) : UnconfirmedTxnPool :=
  let toRemove := (p.Txns.filter (fun kt =>
    (refreshEntry bc now checkPeriod maxAge kt.2).isNone)).map (fun kt => kt.1)
  let txns' := p.Txns.map (fun kt =>
    (kt.1, (refreshEntry bc now checkPeriod maxAge kt.2).getD kt.2))
  removeTxns { p with Txns := txns' } toRemove

/-- `FilterKnown(txns)`: the input hashes with known ones removed, built
by appending each unknown hash to the result in input order. -/
def FilterKnown (p : UnconfirmedTxnPool) (txns : List SHA256) :
    List SHA256 :=
  txns.foldl (fun unknown h =>
    if (mapGet p.Txns h).isSome then unknown else unknown ++ [h]) []

/-- `GetKnown(txns)`: the transaction bodies of the known input hashes,
in input order. -/
def GetKnown (p : UnconfirmedTxnPool) (txns : List SHA256) :
    List Transaction :=
  txns.foldl (fun known h =>
    match mapGet p.Txns h with
    | some txn => known ++ [txn.Txn]
    | none => known) []

/-- `coin.AddressUxOuts`: map from address to outputs. -/
abbrev AddressUxOuts := List (Address × List UxOut)

/-- `auxs[a] = append(auxs[a], ux)`: append to a map-of-slices entry,
creating it from the nil slice when absent. -/
def auxAppend (auxs : AddressUxOuts) (a : Address) (ux : UxOut) :
    AddressUxOuts :=
  mapInsert auxs a (((mapGet auxs a).getD []) ++ [ux])

/-- The body of `SpendsForAddresses`' inner loop for one input hash `h`:
resolve it in the ledger's unspent pool and bucket the resolved output
under its owning address when that address is in `a`. -/
def spendStep (bcUnspent : SHA256 → Option UxOut) (a : List Address)
    (auxs : AddressUxOuts) (h : SHA256) : AddressUxOuts :=
  match bcUnspent h with
  | some ux =>
    if ux.body.address ∈ a then auxAppend auxs ux.body.address ux
    else auxs
  | none => auxs

/-- `SpendsForAddresses(bcUnspent, a)`: run `spendStep` over every input
of every pending transaction. -/
def SpendsForAddresses (bcUnspent : SHA256 → Option UxOut)
    (a : List Address) (p : UnconfirmedTxnPool) : AddressUxOuts :=
  p.Txns.foldl (fun auxs kt =>
    kt.2.Txn.inputs.foldl (spendStep bcUnspent a) auxs) []

/-- `SpendsForAddress(bcUnspent, a)`: the singleton form; reading the
result map at an absent key yields the nil slice. -/
def SpendsForAddress (bcUnspent : SHA256 → Option UxOut) (a : Address)
    (p : UnconfirmedTxnPool) : List UxOut :=
  (mapGet (SpendsForAddresses bcUnspent [a] p) a).getD []

/-! ### Derived notions used to state the spec's properties -/

/-- The key-set consistency invariant of spec section 3: the pending
table and the predicted-unspent index hold exactly the same
identities. -/
def sameKeys (p : UnconfirmedTxnPool) : Prop :=
  ∀ h, (mapGet p.Txns h).isSome ↔ (mapGet p.Unspent h).isSome

/-- One pool operation, without its clock reading. -/
inductive Op where
  | record (bc : Blockchain) (t : Transaction) (addrs : List Address)
      (maxSize : Int) (burnFactor : Nat)
  | setAnnounced (h : SHA256) (tm : Int)
  | removeTransactions (txns : List Transaction)
  | refresh (bc : Blockchain) (checkPeriod maxAge : Int)

/-- Run one operation, observing the clock value `now`. -/
def applyOp (op : Op) (now : Int) (p : UnconfirmedTxnPool) :
    UnconfirmedTxnPool :=
  match op with
  | .record bc t addrs maxSize burnFactor =>
    (RecordTxn bc t addrs maxSize burnFactor now p).2
  | .setAnnounced h tm => SetAnnounced p h tm
  | .removeTransactions txns => RemoveTransactions p txns
  | .refresh bc checkPeriod maxAge => Refresh bc checkPeriod maxAge now p

/-- Run a sequence of operations, each tagged with the clock value it
observes. -/
def runOps (l : List (Op × Int)) (p : UnconfirmedTxnPool) :
    UnconfirmedTxnPool :=
  l.foldl (fun p oi => applyOp oi.1 oi.2 p) p

/-- The pools reachable from `NewUnconfirmedTxnPool` by the pool's
operations (the read-only queries do not change the pool and need no
constructor). -/
inductive Reachable : UnconfirmedTxnPool → Prop where
  | base : Reachable NewUnconfirmedTxnPool
  | record (bc : Blockchain) (t : Transaction) (addrs : List Address)
      (maxSize : Int) (burnFactor : Nat) (now : Int) {p : UnconfirmedTxnPool} :
      Reachable p → Reachable (RecordTxn bc t addrs maxSize burnFactor now p).2
  | setAnnounced (h : SHA256) (tm : Int) {p : UnconfirmedTxnPool} :
      Reachable p → Reachable (SetAnnounced p h tm)
  | removeTransactions (txns : List Transaction) {p : UnconfirmedTxnPool} :
      Reachable p → Reachable (RemoveTransactions p txns)
  | refresh (bc : Blockchain) (checkPeriod maxAge now : Int)
      {p : UnconfirmedTxnPool} :
      Reachable p → Reachable (Refresh bc checkPeriod maxAge now p)

/-- Every entry's `Received` and `Checked` timestamps are at most
`bound`: the wall clock never reads earlier than any stored
timestamp. -/
def stamped (p : UnconfirmedTxnPool) (bound : Int) : Prop :=
  ∀ kt ∈ p.Txns, kt.2.Received ≤ bound ∧ kt.2.Checked ≤ bound

/-! ### Concrete fixtures for witnesses -/

/-- A ledger on which every transaction fails consensus validation. -/
def bcFail : Blockchain :=
  { verifyTransaction := fun _ => some 7
    transactionFee := fun _ => Except.ok 0
    headHash := 0
    createUnspents := fun _ _ => []
    unspentGet := fun _ => none }

/-- A ledger on which every transaction validates, with fee 5. -/
def bcOk : Blockchain :=
  { verifyTransaction := fun _ => none
    transactionFee := fun _ => Except.ok 5
    headHash := 3
    createUnspents := fun h t => [⟨⟨t.hash + h, 1, 1⟩⟩]
    unspentGet := fun _ => none }

/-- A small concrete transaction. -/
def tx1 : Transaction := { hash := 1, size := 2, outputHours := 0, inputs := [] }

/-- A pool holding `tx1` with all timestamps 0. -/
def pool₀ : UnconfirmedTxnPool :=
  { Txns := [(tx1.hash, { Txn := tx1, Received := 0, Checked := 0, Announced := 0 })]
    Unspent := [(tx1.hash, [])] }

/-! ### Lemmas about the Go map model -/

theorem mapGet_insert {β : Type} (m : List (Nat × β)) (k k' : Nat) (v : β) :
    mapGet (mapInsert m k v) k' = if k = k' then some v else mapGet m k' := by
  induction m with
  | nil => simp [mapInsert, mapGet]
  | cons kv rest ih =>
    obtain ⟨k0, v0⟩ := kv
    by_cases h0 : k0 = k
    · subst h0
      by_cases h1 : k0 = k' <;> simp [mapInsert, mapGet, h1]
    · by_cases h1 : k0 = k'
      · subst h1
        have hk : k ≠ k0 := fun h => h0 h.symm
        simp [mapInsert, mapGet, h0, hk]
      · simp [mapInsert, mapGet, h0, h1, ih]

theorem mapGet_erase {β : Type} (m : List (Nat × β)) (k k' : Nat) :
    mapGet (mapErase m k) k' = if k = k' then none else mapGet m k' := by
  induction m with
  | nil => simp [mapErase, mapGet]
  | cons kv rest ih =>
    obtain ⟨k0, v0⟩ := kv
    by_cases h0 : k0 = k
    · subst h0
      have : mapErase ((k0, v0) :: rest) k0 = mapErase rest k0 := by
        simp [mapErase]
      rw [this, ih]
      by_cases h1 : k0 = k' <;> simp [mapGet, h1]
    · have : mapErase ((k0, v0) :: rest) k = (k0, v0) :: mapErase rest k := by
        simp [mapErase, h0]
      rw [this]
      by_cases h1 : k0 = k'
      · subst h1
        have hk : k ≠ k0 := fun h => h0 h.symm
        simp [mapGet, hk]
      · simp [mapGet, h1, ih]

theorem mapGet_mem {β : Type} {m : List (Nat × β)} {k : Nat} {v : β}
    (h : mapGet m k = some v) : (k, v) ∈ m := by
  induction m with
  | nil => simp [mapGet] at h
  | cons kv rest ih =>
    obtain ⟨k0, v0⟩ := kv
    by_cases h0 : k0 = k
    · subst h0
      simp [mapGet] at h
      simp [h]
    · simp [mapGet, h0] at h
      simp [ih h]

theorem mem_mapGet {β : Type} {m : List (Nat × β)} {k : Nat} {v : β}
    (hnd : (m.map Prod.fst).Nodup) (h : (k, v) ∈ m) : mapGet m k = some v := by
  induction m with
  | nil => simp at h
  | cons kv rest ih =>
    obtain ⟨k0, v0⟩ := kv
    rw [List.map_cons, List.nodup_cons] at hnd
    rcases List.mem_cons.mp h with h | h
    · cases h
      simp [mapGet]
    · have hk : k0 ≠ k := by
        intro he
        subst he
        exact hnd.1 (List.mem_map.mpr ⟨(k0, v), h, rfl⟩)
      simp [mapGet, hk, ih hnd.2 h]

theorem mem_mapInsert {β : Type} {m : List (Nat × β)} {k : Nat} {v : β}
    {kt : Nat × β} (h : kt ∈ mapInsert m k v) : kt = (k, v) ∨ kt ∈ m := by
  induction m with
  | nil => simpa [mapInsert] using h
  | cons kv rest ih =>
    obtain ⟨k0, v0⟩ := kv
    by_cases h0 : k0 = k
    · subst h0
      simp [mapInsert] at h
      rcases h with h | h
      · exact Or.inl h
      · exact Or.inr (List.mem_cons_of_mem _ h)
    · simp [mapInsert, h0] at h
      rcases h with h | h
      · exact Or.inr (by simp [h])
      · rcases ih h with h | h
        · exact Or.inl h
        · exact Or.inr (List.mem_cons_of_mem _ h)

theorem mapInsert_length {β : Type} {m : List (Nat × β)} {k : Nat} (v : β)
    (h : (mapGet m k).isSome) : (mapInsert m k v).length = m.length := by
  induction m with
  | nil => simp [mapGet] at h
  | cons kv rest ih =>
    obtain ⟨k0, v0⟩ := kv
    by_cases h0 : k0 = k
    · subst h0
      simp [mapInsert]
    · simp [mapGet, h0] at h
      simp [mapInsert, h0, ih h]

theorem mapGet_mapVal {β : Type} (f : Nat → β → β) (m : List (Nat × β))
    (k : Nat) :
    mapGet (m.map (fun kt => (kt.1, f kt.1 kt.2))) k
      = (mapGet m k).map (f k) := by
  induction m with
  | nil => simp [mapGet]
  | cons kv rest ih =>
    obtain ⟨k0, v0⟩ := kv
    by_cases h0 : k0 = k
    · subst h0
      simp [mapGet]
    · simp [mapGet, h0, ih]

theorem removeTxns_get (p : UnconfirmedTxnPool) (hs : List SHA256)
    (h : SHA256) :
    mapGet (removeTxns p hs).Txns h
        = (if h ∈ hs then none else mapGet p.Txns h)
      ∧ mapGet (removeTxns p hs).Unspent h
        = (if h ∈ hs then none else mapGet p.Unspent h) := by
  induction hs generalizing p with
  | nil => simp [removeTxns]
  | cons h0 rest ih =>
    have hstep : removeTxns p (h0 :: rest)
        = removeTxns ⟨mapErase p.Txns h0, mapErase p.Unspent h0⟩ rest := rfl
    rw [hstep]
    rcases ih ⟨mapErase p.Txns h0, mapErase p.Unspent h0⟩ with ⟨ih1, ih2⟩
    rw [ih1, ih2]
    by_cases hr : h ∈ rest
    · simp [hr]
    · by_cases h00 : h0 = h
      · subst h00
        simp [hr, mapGet_erase]
      · have hne : h ≠ h0 := fun he => h00 he.symm
        have hni : h ∉ (h0 :: rest) := by simp [hr, hne]
        simp [hni, hr, mapGet_erase, h00]

theorem mem_removeTxns {p : UnconfirmedTxnPool} {hs : List SHA256}
    {kt : SHA256 × UnconfirmedTxn} (h : kt ∈ (removeTxns p hs).Txns) :
    kt ∈ p.Txns := by
  induction hs generalizing p with
  | nil => simpa [removeTxns] using h
  | cons h0 rest ih =>
    have hstep : removeTxns p (h0 :: rest)
        = removeTxns ⟨mapErase p.Txns h0, mapErase p.Unspent h0⟩ rest := rfl
    rw [hstep] at h
    have := ih h
    simp only [mapErase] at this
    exact List.mem_of_mem_filter this

theorem foldl_append_if {α : Type} (c : α → Bool) (l acc : List α) :
    l.foldl (fun u h => if c h then u else u ++ [h]) acc
      = acc ++ l.filter (fun h => !c h) := by
  induction l generalizing acc with
  | nil => simp
  | cons x xs ih =>
    by_cases hx : c x = true
    · simp [List.foldl_cons, hx, ih, List.filter_cons]
    · have hx' : c x = false := by simpa using hx
      simp [List.foldl_cons, hx', ih, List.filter_cons]

theorem mapGet_refresh_map (bc : Blockchain) (now checkPeriod maxAge : Int)
    (m : List (SHA256 × UnconfirmedTxn)) (k : SHA256) :
    mapGet (m.map (fun kt =>
        (kt.1, (refreshEntry bc now checkPeriod maxAge kt.2).getD kt.2))) k
      = (mapGet m k).map
          (fun v => (refreshEntry bc now checkPeriod maxAge v).getD v) := by
  induction m with
  | nil => simp [mapGet]
  | cons kv rest ih =>
    obtain ⟨k0, v0⟩ := kv
    by_cases h0 : k0 = k
    · subst h0
      simp [mapGet]
    · simp [mapGet, h0, ih]

theorem mem_refresh_toRemove (bc : Blockchain) (now checkPeriod maxAge : Int)
    (m : List (SHA256 × UnconfirmedTxn)) (k : SHA256) :
    (k ∈ (m.filter (fun kt =>
        (refreshEntry bc now checkPeriod maxAge kt.2).isNone)).map
          (fun kt => kt.1))
      ↔ ∃ v, (k, v) ∈ m
          ∧ (refreshEntry bc now checkPeriod maxAge v).isNone := by
  constructor
  · intro h
    rcases List.mem_map.mp h with ⟨kt, hmem, hk⟩
    rcases List.mem_filter.mp hmem with ⟨hmem', hnone⟩
    exact ⟨kt.2, by rw [← hk]; simpa using hmem', hnone⟩
  · rintro ⟨v, hmem, hnone⟩
    exact List.mem_map.mpr ⟨(k, v), List.mem_filter.mpr ⟨hmem, hnone⟩, rfl⟩

/-! ### Preservation of the key-set invariant -/

theorem sameKeys_new : sameKeys NewUnconfirmedTxnPool := by
  intro h
  simp [NewUnconfirmedTxnPool, mapGet]

theorem sameKeys_record (bc : Blockchain) (t : Transaction)
    (addrs : List Address) (maxSize : Int) (burnFactor : Nat) (now : Int)
    {p : UnconfirmedTxnPool} (hp : sameKeys p) :
    sameKeys (RecordTxn bc t addrs maxSize burnFactor now p).2 := by
  rcases hv : VerifyTransaction bc t maxSize burnFactor with _ | e
  · rcases hc : bc.verifyTransaction t with _ | e
    · rcases hg : mapGet p.Txns t.hash with _ | ut
      · intro k
        simp only [RecordTxn, hv, hc, hg]
        rw [mapGet_insert, mapGet_insert]
        by_cases hk : t.hash = k
        · simp [hk]
        · simp [hk, hp k]
      · intro k
        simp only [RecordTxn, hv, hc, hg]
        rw [mapGet_insert]
        by_cases hk : t.hash = k
        · subst hk
          simp only [if_pos rfl]
          constructor
          · intro _
            exact (hp t.hash).mp (by simp [hg])
          · intro _
            simp
        · simp [hk, hp k]
    · intro k
      simp only [RecordTxn, hv, hc]
      exact hp k
  · intro k
    simp only [RecordTxn, hv]
    exact hp k

theorem sameKeys_setAnnounced (h : SHA256) (tm : Int)
    {p : UnconfirmedTxnPool} (hp : sameKeys p) :
    sameKeys (SetAnnounced p h tm) := by
  rcases hg : mapGet p.Txns h with _ | tx
  · simpa [SetAnnounced, hg] using hp
  · intro k
    simp only [SetAnnounced, hg]
    rw [mapGet_insert]
    by_cases hk : h = k
    · subst hk
      simp only [if_pos rfl]
      constructor
      · intro _
        exact (hp h).mp (by simp [hg])
      · intro _
        simp
    · simp [hk, hp k]

theorem sameKeys_removeTxns (hs : List SHA256) {p : UnconfirmedTxnPool}
    (hp : sameKeys p) : sameKeys (removeTxns p hs) := by
  intro k
  rcases removeTxns_get p hs k with ⟨h1, h2⟩
  rw [h1, h2]
  by_cases hk : k ∈ hs
  · simp [hk]
  · simp [hk, hp k]

theorem sameKeys_refresh (bc : Blockchain) (checkPeriod maxAge now : Int)
    {p : UnconfirmedTxnPool} (hp : sameKeys p) :
    sameKeys (Refresh bc checkPeriod maxAge now p) := by
  apply sameKeys_removeTxns
  intro k
  rw [mapGet_refresh_map]
  rcases hg : mapGet p.Txns k with _ | v
  · simpa [hg] using hp k
  · have : (mapGet p.Unspent k).isSome := (hp k).mp (by simp [hg])
    simp [this]

/-! ### The claims -/

/-- Claim C10: `RecordTxn`'s observable behaviour — the returned
`(error, alreadyExisted)` pair and the entire resulting pool — does not
depend on the `addrs` (addresses-of-interest) parameter. -/
theorem record_txn_ignores_addrs (bc : Blockchain) (t : Transaction)
    (addrs₁ addrs₂ : List Address) (maxSize : Int) (burnFactor : Nat)
    (now : Int) (p : UnconfirmedTxnPool) :
    RecordTxn bc t addrs₁ maxSize burnFactor now p
      = RecordTxn bc t addrs₂ maxSize burnFactor now p := rfl

/-- Claim C2: if `RecordTxn` fails the policy check or the ledger's
consensus validation, it returns a non-nil error and the pool state
after the call is exactly the pool state before the call. -/
theorem record_txn_failure_inert (bc : Blockchain) (t : Transaction)
    (addrs : List Address) (maxSize : Int) (burnFactor : Nat) (now : Int)
    (p : UnconfirmedTxnPool)
    (h : (VerifyTransaction bc t maxSize burnFactor).isSome
        ∨ (bc.verifyTransaction t).isSome) :
    ((RecordTxn bc t addrs maxSize burnFactor now p).1.1).isSome
      ∧ (RecordTxn bc t addrs maxSize burnFactor now p).2 = p := by
  rcases hv : VerifyTransaction bc t maxSize burnFactor with _ | e
  · rcases hc : bc.verifyTransaction t with _ | e
    · rw [hv, hc] at h
      simp at h
    · simp [RecordTxn, hv, hc]
  · simp [RecordTxn, hv]

/-- Witness for C2 at a concrete ledger that rejects every transaction
at consensus validation. -/
theorem record_txn_failure_inert_witness :
    ((RecordTxn bcFail tx1 [] 10 0 5 NewUnconfirmedTxnPool).1.1).isSome
      ∧ (RecordTxn bcFail tx1 [] 10 0 5 NewUnconfirmedTxnPool).2
          = NewUnconfirmedTxnPool :=
  record_txn_failure_inert bcFail tx1 [] 10 0 5 NewUnconfirmedTxnPool
    (Or.inr (by decide))

/-- Claim C4: the policy check fails with the too-large error exactly
when the serialized size strictly exceeds `maxSize` (a transaction
exactly at `maxSize` passes); otherwise a fee-computation error is
propagated unchanged; otherwise it fails with the fee-too-low error
exactly when `burnFactor ≠ 0` and `outputHours / burnFactor` (integer
division) strictly exceeds the fee (equality is accepted); otherwise it
succeeds.  `VerifyTransaction` is a pure function of its arguments, so
it mutates no state. -/
theorem verify_transaction_policy (bc : Blockchain) (t : Transaction)
    (maxSize : Int) (burnFactor : Nat) :
    (VerifyTransaction bc t maxSize burnFactor = some TxnError.tooLarge
        ↔ (t.size : Int) > maxSize)
    ∧ (∀ e, (t.size : Int) ≤ maxSize → bc.transactionFee t = Except.error e →
        VerifyTransaction bc t maxSize burnFactor = some (TxnError.fromLedger e))
    ∧ (∀ fee, (t.size : Int) ≤ maxSize → bc.transactionFee t = Except.ok fee →
        (VerifyTransaction bc t maxSize burnFactor = some TxnError.feeTooLow
            ↔ burnFactor ≠ 0 ∧ t.outputHours / burnFactor > fee)
        ∧ (¬(burnFactor ≠ 0 ∧ t.outputHours / burnFactor > fee) →
            VerifyTransaction bc t maxSize burnFactor = none)) := by
  by_cases hs : (t.size : Int) > maxSize
  · refine ⟨⟨fun _ => hs, fun _ => by simp [VerifyTransaction, hs]⟩, ?_, ?_⟩
    · intro e hle _
      exact absurd hs (not_lt.mpr hle)
    · intro fee hle _
      exact absurd hs (not_lt.mpr hle)
  · rcases hf : bc.transactionFee t with e | fee
    · refine ⟨⟨fun hres => ?_, fun hgt => absurd hgt hs⟩, ?_, ?_⟩
      · simp [VerifyTransaction, hs, hf] at hres
      · intro e' _ hf'
        have he : e = e' := by simpa using hf'
        subst he
        simp [VerifyTransaction, hs, hf]
      · intro fee _ hf'
        exact absurd hf' (by simp)
    · by_cases hb : burnFactor ≠ 0 ∧ t.outputHours / burnFactor > fee
      · refine ⟨⟨fun hres => ?_, fun hgt => absurd hgt hs⟩, ?_, ?_⟩
        · simp [VerifyTransaction, hs, hf, hb] at hres
        · intro e' _ hf'
          exact absurd hf' (by simp)
        · intro fee' _ hf'
          have he : fee = fee' := by simpa using hf'
          subst he
          refine ⟨⟨fun _ => hb, fun _ => by simp [VerifyTransaction, hs, hf, hb]⟩, ?_⟩
          intro hnb
          exact absurd hb hnb
      · refine ⟨⟨fun hres => ?_, fun hgt => absurd hgt hs⟩, ?_, ?_⟩
        · simp [VerifyTransaction, hs, hf, hb] at hres
        · intro e' _ hf'
          exact absurd hf' (by simp)
        · intro fee' _ hf'
          have he : fee = fee' := by simpa using hf'
          subst he
          refine ⟨⟨fun hres => ?_, fun hgt => absurd hgt hb⟩, ?_⟩
          · simp [VerifyTransaction, hs, hf, hb] at hres
          · intro _
            simp [VerifyTransaction, hs, hf, hb]

/-- Witness for C4: on a ledger with fee 5, a transaction of size 2 with
`maxSize = 10` and `burnFactor = 0` passes the whole policy check. -/
theorem verify_transaction_policy_witness :
    VerifyTransaction bcOk tx1 10 0 = none :=
  ((verify_transaction_policy bcOk tx1 10 0).2.2 5 (by decide) rfl).2
    (by decide)

/-- Claim C1: after any sequence of pool operations starting from
`NewUnconfirmedTxnPool`, the set of identities in the pending table
`Txns` equals the set of identities in the predicted-unspent index
`Unspent`. -/
theorem pool_keyset_invariant {p : UnconfirmedTxnPool} (hr : Reachable p) :
    sameKeys p := by
  induction hr with
  | base => exact sameKeys_new
  | record bc t addrs maxSize burnFactor now _ ih =>
    exact sameKeys_record bc t addrs maxSize burnFactor now ih
  | setAnnounced h tm _ ih => exact sameKeys_setAnnounced h tm ih
  | removeTransactions txns _ ih => exact sameKeys_removeTxns _ ih
  | refresh bc checkPeriod maxAge now _ ih =>
    exact sameKeys_refresh bc checkPeriod maxAge now ih

/-- Witness for C1: the pool reached by recording `tx1` on the empty pool
satisfies the key-set invariant. -/
theorem pool_keyset_invariant_witness :
    sameKeys (RecordTxn bcOk tx1 [] 10 0 5 NewUnconfirmedTxnPool).2 :=
  pool_keyset_invariant
    (Reachable.record bcOk tx1 [] 10 0 5 Reachable.base)

/-- Claim C6: `RemoveTransactions` deletes exactly the given
transactions' identities from both maps, leaves every other entry
unchanged, and removing an absent identity is a silent no-op (the
result at other keys is untouched and no error is possible); and the
record-then-remove round trip on an empty pool yields the empty pool,
after which `FilterKnown [hash t]` returns `[hash t]`. -/
theorem remove_transactions_spec :
    (∀ (p : UnconfirmedTxnPool) (txns : List Transaction) (h : SHA256),
      mapGet (RemoveTransactions p txns).Txns h
          = (if h ∈ txns.map Transaction.hash then none else mapGet p.Txns h)
        ∧ mapGet (RemoveTransactions p txns).Unspent h
          = (if h ∈ txns.map Transaction.hash then none
             else mapGet p.Unspent h))
    ∧ (∀ (bc : Blockchain) (t : Transaction) (addrs : List Address)
        (maxSize : Int) (burnFactor : Nat) (now : Int),
      RemoveTransactions
          (RecordTxn bc t addrs maxSize burnFactor now
            NewUnconfirmedTxnPool).2 [t]
        = NewUnconfirmedTxnPool
      ∧ FilterKnown
          (RemoveTransactions
            (RecordTxn bc t addrs maxSize burnFactor now
              NewUnconfirmedTxnPool).2 [t])
          [t.hash]
        = [t.hash]) := by
  constructor
  · intro p txns h
    exact removeTxns_get p (txns.map Transaction.hash) h
  · intro bc t addrs maxSize burnFactor now
    have hempty : RemoveTransactions
        (RecordTxn bc t addrs maxSize burnFactor now
          NewUnconfirmedTxnPool).2 [t]
        = NewUnconfirmedTxnPool := by
      rcases hv : VerifyTransaction bc t maxSize burnFactor with _ | e
      · rcases hc : bc.verifyTransaction t with _ | e
        · simp [RecordTxn, hv, hc, NewUnconfirmedTxnPool, mapGet,
            RemoveTransactions, removeTxns, mapErase, mapInsert,
            createUnconfirmedTxn]
        · simp [RecordTxn, hv, hc, NewUnconfirmedTxnPool,
            RemoveTransactions, removeTxns, mapErase]
      · simp [RecordTxn, hv, NewUnconfirmedTxnPool, RemoveTransactions,
          removeTxns, mapErase]
    refine ⟨hempty, ?_⟩
    rw [hempty]
    simp [FilterKnown, NewUnconfirmedTxnPool, mapGet]

/-- Claim C3: for a transaction that passes both the policy check and
consensus validation and is not yet pooled, recording it twice in
succession returns `(nil, false)` then `(nil, true)`; the pool size
after the second call equals the size after the first; the entry's
`Checked` timestamp after the second call is at least its value after
the first (for a non-decreasing clock); the entry's transaction body is
unchanged; and the predicted-unspent index is unchanged by the second
call. -/
theorem record_txn_twice (bc : Blockchain) (t : Transaction)
    (addrs : List Address) (maxSize : Int) (burnFactor : Nat)
    (now₁ now₂ : Int) (p : UnconfirmedTxnPool)
    (hfresh : mapGet p.Txns t.hash = none)
    (hpolicy : VerifyTransaction bc t maxSize burnFactor = none)
    (hcons : bc.verifyTransaction t = none)
    (hmono : now₁ ≤ now₂) :
    (RecordTxn bc t addrs maxSize burnFactor now₁ p).1 = (none, false)
    ∧ (RecordTxn bc t addrs maxSize burnFactor now₂
        (RecordTxn bc t addrs maxSize burnFactor now₁ p).2).1 = (none, true)
    ∧ (RecordTxn bc t addrs maxSize burnFactor now₂
        (RecordTxn bc t addrs maxSize burnFactor now₁ p).2).2.Txns.length
      = (RecordTxn bc t addrs maxSize burnFactor now₁ p).2.Txns.length
    ∧ (∃ e₁ e₂,
        mapGet (RecordTxn bc t addrs maxSize burnFactor now₁ p).2.Txns
          t.hash = some e₁
        ∧ mapGet (RecordTxn bc t addrs maxSize burnFactor now₂
            (RecordTxn bc t addrs maxSize burnFactor now₁ p).2).2.Txns
          t.hash = some e₂
        ∧ e₁.Checked ≤ e₂.Checked ∧ e₁.Txn = t ∧ e₂.Txn = t)
    ∧ (RecordTxn bc t addrs maxSize burnFactor now₂
        (RecordTxn bc t addrs maxSize burnFactor now₁ p).2).2.Unspent
      = (RecordTxn bc t addrs maxSize burnFactor now₁ p).2.Unspent := by
  have h1 : RecordTxn bc t addrs maxSize burnFactor now₁ p
      = ((none, false),
        { Txns := mapInsert p.Txns t.hash
            { Txn := t, Received := now₁, Checked := now₁, Announced := 0 },
          Unspent := mapInsert p.Unspent t.hash
            (bc.createUnspents bc.headHash t) }) := by
    simp [RecordTxn, hpolicy, hcons, hfresh, createUnconfirmedTxn]
  have hget1 : mapGet (mapInsert p.Txns t.hash
      { Txn := t, Received := now₁, Checked := now₁, Announced := 0 }) t.hash
      = some { Txn := t, Received := now₁, Checked := now₁, Announced := 0 } := by
    rw [mapGet_insert]
    simp
  have h2 : RecordTxn bc t addrs maxSize burnFactor now₂
      (RecordTxn bc t addrs maxSize burnFactor now₁ p).2
      = ((none, true),
        { Txns := mapInsert (mapInsert p.Txns t.hash
            { Txn := t, Received := now₁, Checked := now₁, Announced := 0 })
            t.hash
            { Txn := t, Received := now₂, Checked := now₂, Announced := 0 },
          Unspent := mapInsert p.Unspent t.hash
            (bc.createUnspents bc.headHash t) }) := by
    rw [h1]
    simp [RecordTxn, hpolicy, hcons, hget1]
  refine ⟨by rw [h1], by rw [h2], ?_, ?_, ?_⟩
  · rw [h2, h1]
    exact mapInsert_length _ (by rw [hget1]; rfl)
  · refine ⟨{ Txn := t, Received := now₁, Checked := now₁, Announced := 0 },
      { Txn := t, Received := now₂, Checked := now₂, Announced := 0 },
      ?_, ?_, hmono, rfl, rfl⟩
    · rw [h1]
      exact hget1
    · rw [h2, mapGet_insert]
      simp
  · rw [h2, h1]

/-- Witness for C3 on a concrete valid transaction recorded at times 1
and 2 into the empty pool. -/
theorem record_txn_twice_witness :
    (RecordTxn bcOk tx1 [] 10 0 1 NewUnconfirmedTxnPool).1 = (none, false)
    ∧ (RecordTxn bcOk tx1 [] 10 0 2
        (RecordTxn bcOk tx1 [] 10 0 1 NewUnconfirmedTxnPool).2).1
      = (none, true)
    ∧ (RecordTxn bcOk tx1 [] 10 0 2
        (RecordTxn bcOk tx1 [] 10 0 1 NewUnconfirmedTxnPool).2).2.Txns.length
      = (RecordTxn bcOk tx1 [] 10 0 1 NewUnconfirmedTxnPool).2.Txns.length
    ∧ (∃ e₁ e₂,
        mapGet (RecordTxn bcOk tx1 [] 10 0 1
          NewUnconfirmedTxnPool).2.Txns tx1.hash = some e₁
        ∧ mapGet (RecordTxn bcOk tx1 [] 10 0 2
            (RecordTxn bcOk tx1 [] 10 0 1 NewUnconfirmedTxnPool).2).2.Txns
          tx1.hash = some e₂
        ∧ e₁.Checked ≤ e₂.Checked ∧ e₁.Txn = tx1 ∧ e₂.Txn = tx1)
    ∧ (RecordTxn bcOk tx1 [] 10 0 2
        (RecordTxn bcOk tx1 [] 10 0 1 NewUnconfirmedTxnPool).2).2.Unspent
      = (RecordTxn bcOk tx1 [] 10 0 1 NewUnconfirmedTxnPool).2.Unspent :=
  record_txn_twice bcOk tx1 [] 10 0 1 2 NewUnconfirmedTxnPool rfl
    (by decide) rfl (by decide)

/-- Claim C5: `Refresh` treats each pooled entry as follows: an entry
older than `maxAge` (by `Received`) is removed from both maps regardless
of validity; otherwise an entry due for a check (by `Checked` and
`checkPeriod`) has its `Checked` set to `now` when it still validates
and is removed from both maps when it does not; entries in neither case
are left untouched, with the predicted-unspent index unchanged at their
key.  Removals are applied to the result only (after the scan), which
the statement expresses by describing the final pool. -/
theorem refresh_spec (bc : Blockchain) (checkPeriod maxAge now : Int)
    (p : UnconfirmedTxnPool) (hnd : (p.Txns.map Prod.fst).Nodup)
    (k : SHA256) (t : UnconfirmedTxn)
    (hget : mapGet p.Txns k = some t) :
    (now - t.Received ≥ maxAge →
      mapGet (Refresh bc checkPeriod maxAge now p).Txns k = none
      ∧ mapGet (Refresh bc checkPeriod maxAge now p).Unspent k = none)
    ∧ (¬now - t.Received ≥ maxAge → now - t.Checked ≥ checkPeriod →
      (bc.verifyTransaction t.Txn = none →
        mapGet (Refresh bc checkPeriod maxAge now p).Txns k
          = some { t with Checked := now }
        ∧ mapGet (Refresh bc checkPeriod maxAge now p).Unspent k
          = mapGet p.Unspent k)
      ∧ (bc.verifyTransaction t.Txn ≠ none →
        mapGet (Refresh bc checkPeriod maxAge now p).Txns k = none
        ∧ mapGet (Refresh bc checkPeriod maxAge now p).Unspent k = none))
    ∧ (¬now - t.Received ≥ maxAge → ¬now - t.Checked ≥ checkPeriod →
      mapGet (Refresh bc checkPeriod maxAge now p).Txns k = some t
      ∧ mapGet (Refresh bc checkPeriod maxAge now p).Unspent k
        = mapGet p.Unspent k) := by
  have hmem : (k ∈ (p.Txns.filter (fun kt =>
        (refreshEntry bc now checkPeriod maxAge kt.2).isNone)).map
          (fun kt => kt.1))
      ↔ (refreshEntry bc now checkPeriod maxAge t).isNone := by
    rw [mem_refresh_toRemove]
    constructor
    · rintro ⟨v, hv, hn⟩
      have hv' := mem_mapGet hnd hv
      rw [hget] at hv'
      have := Option.some.inj hv'
      rw [this]
      exact hn
    · intro hn
      exact ⟨t, mapGet_mem hget, hn⟩
  have hcompute : ∀ k', mapGet (Refresh bc checkPeriod maxAge now p).Txns k'
        = (if k' ∈ (p.Txns.filter (fun kt =>
              (refreshEntry bc now checkPeriod maxAge kt.2).isNone)).map
                (fun kt => kt.1)
           then none
           else (mapGet p.Txns k').map
             (fun v => (refreshEntry bc now checkPeriod maxAge v).getD v))
      ∧ mapGet (Refresh bc checkPeriod maxAge now p).Unspent k'
        = (if k' ∈ (p.Txns.filter (fun kt =>
              (refreshEntry bc now checkPeriod maxAge kt.2).isNone)).map
                (fun kt => kt.1)
           then none
           else mapGet p.Unspent k') := by
    intro k'
    rcases removeTxns_get
        { p with Txns := p.Txns.map (fun kt =>
            (kt.1, (refreshEntry bc now checkPeriod maxAge kt.2).getD kt.2)) }
        ((p.Txns.filter (fun kt =>
            (refreshEntry bc now checkPeriod maxAge kt.2).isNone)).map
          (fun kt => kt.1)) k' with ⟨h1, h2⟩
    exact ⟨by rw [Refresh, h1, mapGet_refresh_map], by rw [Refresh, h2]⟩
  refine ⟨?_, ?_, ?_⟩
  · intro hexp
    have hre : refreshEntry bc now checkPeriod maxAge t = none := by
      simp [refreshEntry, hexp]
    have hk : k ∈ (p.Txns.filter (fun kt =>
        (refreshEntry bc now checkPeriod maxAge kt.2).isNone)).map
          (fun kt => kt.1) := hmem.mpr (by simp [hre])
    rcases hcompute k with ⟨h1, h2⟩
    rw [h1, h2]
    simp [hk]
  · intro hexp hdue
    constructor
    · intro hver
      have hre : refreshEntry bc now checkPeriod maxAge t
          = some { t with Checked := now } := by
        simp [refreshEntry, hexp, hdue, hver]
      have hk : k ∉ (p.Txns.filter (fun kt =>
          (refreshEntry bc now checkPeriod maxAge kt.2).isNone)).map
            (fun kt => kt.1) := by
        intro hk
        have := hmem.mp hk
        rw [hre] at this
        simp at this
      rcases hcompute k with ⟨h1, h2⟩
      rw [h1, h2]
      simp [hk, hget, hre]
    · intro hver
      have hre : refreshEntry bc now checkPeriod maxAge t = none := by
        simp [refreshEntry, hexp, hdue, hver]
      have hk : k ∈ (p.Txns.filter (fun kt =>
          (refreshEntry bc now checkPeriod maxAge kt.2).isNone)).map
            (fun kt => kt.1) := hmem.mpr (by simp [hre])
      rcases hcompute k with ⟨h1, h2⟩
      rw [h1, h2]
      simp [hk]
  · intro hexp hdue
    have hre : refreshEntry bc now checkPeriod maxAge t = some t := by
      simp [refreshEntry, hexp, hdue]
    have hk : k ∉ (p.Txns.filter (fun kt =>
        (refreshEntry bc now checkPeriod maxAge kt.2).isNone)).map
          (fun kt => kt.1) := by
      intro hk
      have := hmem.mp hk
      rw [hre] at this
      simp at this
    rcases hcompute k with ⟨h1, h2⟩
    rw [h1, h2]
    simp [hk, hget, hre]

/-- Witness for C5: in a pool holding one entry received at time 0,
refreshing at time 10 with `maxAge = 3` removes the entry from both
maps. -/
theorem refresh_spec_witness :
    (10 - (0:Int) ≥ 3)
    ∧ mapGet (Refresh bcFail 1 3 10 pool₀).Txns tx1.hash = none
    ∧ mapGet (Refresh bcFail 1 3 10 pool₀).Unspent tx1.hash = none := by
  refine ⟨by decide, ?_, ?_⟩
  · exact ((refresh_spec bcFail 1 3 10 pool₀ (by decide) tx1.hash
      { Txn := tx1, Received := 0, Checked := 0, Announced := 0 }
      (by decide)).1 (by decide)).1
  · exact ((refresh_spec bcFail 1 3 10 pool₀ (by decide) tx1.hash
      { Txn := tx1, Received := 0, Checked := 0, Announced := 0 }
      (by decide)).1 (by decide)).2

theorem mapGet_auxAppend (auxs : AddressUxOuts) (b a : Address) (ux : UxOut) :
    (mapGet (auxAppend auxs b ux) a).getD []
      = (if b = a then (mapGet auxs a).getD [] ++ [ux]
         else (mapGet auxs a).getD []) := by
  rw [auxAppend, mapGet_insert]
  by_cases hba : b = a <;> simp [hba]

theorem mapGet_auxAppend_ne (auxs : AddressUxOuts) (b a : Address)
    (ux : UxOut) (h : b ≠ a) :
    mapGet (auxAppend auxs b ux) a = mapGet auxs a := by
  rw [auxAppend, mapGet_insert, if_neg h]

theorem spends_foldl_flatMap (bcUnspent : SHA256 → Option UxOut)
    (A : List Address) (L : List (SHA256 × UnconfirmedTxn))
    (acc : AddressUxOuts) :
    L.foldl (fun auxs kt =>
        kt.2.Txn.inputs.foldl (spendStep bcUnspent A) auxs) acc
      = (L.flatMap (fun kt => kt.2.Txn.inputs)).foldl
          (spendStep bcUnspent A) acc := by
  induction L generalizing acc with
  | nil => rfl
  | cons kt rest ih =>
    rw [List.foldl_cons, ih, List.flatMap_cons, List.foldl_append]

theorem spendStep_foldl_get_mem (bcUnspent : SHA256 → Option UxOut)
    {A : List Address} {a : Address} (ha : a ∈ A) (hs : List SHA256)
    (acc : AddressUxOuts) :
    (mapGet (hs.foldl (spendStep bcUnspent A) acc) a).getD []
      = (mapGet acc a).getD []
        ++ (hs.filterMap bcUnspent).filter
            (fun ux => ux.body.address = a) := by
  induction hs generalizing acc with
  | nil => simp
  | cons h rest ih =>
    rw [List.foldl_cons]
    rcases hu : bcUnspent h with _ | ux
    · rw [show spendStep bcUnspent A acc h = acc from by simp [spendStep, hu],
        ih]
      simp [List.filterMap_cons, hu]
    · by_cases hin : ux.body.address ∈ A
      · rw [show spendStep bcUnspent A acc h
            = auxAppend acc ux.body.address ux from by simp [spendStep, hu, hin],
          ih, mapGet_auxAppend]
        by_cases hax : ux.body.address = a
        · simp [List.filterMap_cons, hu, List.filter_cons, hax]
        · simp [List.filterMap_cons, hu, List.filter_cons, hax]
      · have hax : ux.body.address ≠ a := fun he => hin (he ▸ ha)
        rw [show spendStep bcUnspent A acc h = acc from by
            simp [spendStep, hu, hin], ih]
        simp [List.filterMap_cons, hu, List.filter_cons, hax]

theorem spendStep_foldl_get_notmem (bcUnspent : SHA256 → Option UxOut)
    {A : List Address} {a : Address} (ha : a ∉ A) (hs : List SHA256)
    (acc : AddressUxOuts) :
    mapGet (hs.foldl (spendStep bcUnspent A) acc) a = mapGet acc a := by
  induction hs generalizing acc with
  | nil => rfl
  | cons h rest ih =>
    rw [List.foldl_cons, ih]
    rcases hu : bcUnspent h with _ | ux
    · simp [spendStep, hu]
    · by_cases hin : ux.body.address ∈ A
      · have hne : ux.body.address ≠ a := fun he => ha (he ▸ hin)
        simp [spendStep, hu, hin, mapGet_auxAppend_ne _ _ _ _ hne]
      · simp [spendStep, hu, hin]

/-- Claim C7: for each address `a` in the queried set, the result of
`SpendsForAddresses` at `a` is exactly the list of outputs that are the
resolved source (through the ledger's unspent index) of some input of
some pending transaction and are owned by `a`; addresses outside the
set get no entry; unresolved inputs contribute nothing (they are
dropped by the `filterMap` through the unspent index); and
`SpendsForAddress a` agrees with the singleton-set query at `a`. -/
theorem spends_for_addresses_spec (bcUnspent : SHA256 → Option UxOut)
    (A : List Address) (p : UnconfirmedTxnPool) (a : Address) :
    (a ∈ A →
      (mapGet (SpendsForAddresses bcUnspent A p) a).getD []
        = ((p.Txns.flatMap (fun kt => kt.2.Txn.inputs)).filterMap
            bcUnspent).filter (fun ux => ux.body.address = a))
    ∧ (a ∉ A → mapGet (SpendsForAddresses bcUnspent A p) a = none)
    ∧ SpendsForAddress bcUnspent a p
        = ((p.Txns.flatMap (fun kt => kt.2.Txn.inputs)).filterMap
            bcUnspent).filter (fun ux => ux.body.address = a) := by
  have hmain : ∀ (A' : List Address), a ∈ A' →
      (mapGet (SpendsForAddresses bcUnspent A' p) a).getD []
        = ((p.Txns.flatMap (fun kt => kt.2.Txn.inputs)).filterMap
            bcUnspent).filter (fun ux => ux.body.address = a) := by
    intro A' ha
    rw [SpendsForAddresses, spends_foldl_flatMap,
      spendStep_foldl_get_mem bcUnspent ha]
    simp [mapGet]
  refine ⟨hmain A, ?_, ?_⟩
  · intro ha
    rw [SpendsForAddresses, spends_foldl_flatMap,
      spendStep_foldl_get_notmem bcUnspent ha]
    rfl
  · rw [SpendsForAddress]
    exact hmain [a] (List.mem_singleton.mpr rfl)

/-- Witness for C7 at a concrete query: address 8 is in the queried set
`[8]`, and with an empty pool its spend list is empty. -/
theorem spends_for_addresses_spec_witness :
    (8 : Address) ∈ [(8 : Address)]
    ∧ (mapGet (SpendsForAddresses bcOk.unspentGet [8]
        NewUnconfirmedTxnPool) 8).getD []
      = ((NewUnconfirmedTxnPool.Txns.flatMap
          (fun kt => kt.2.Txn.inputs)).filterMap bcOk.unspentGet).filter
            (fun ux => ux.body.address = 8) :=
  ⟨by decide,
    (spends_for_addresses_spec bcOk.unspentGet [8]
      NewUnconfirmedTxnPool 8).1 (by decide)⟩

/-- Claim C8: `FilterKnown` returns exactly the subsequence of the input
consisting of the identities not present in the pending table, in input
order with duplicates preserved; being a pure function of the pool, it
does not modify it. -/
theorem filter_known_subseq (p : UnconfirmedTxnPool) (txns : List SHA256) :
    FilterKnown p txns = txns.filter (fun h => (mapGet p.Txns h).isNone)
      ∧ (FilterKnown p txns).Sublist txns := by
  have heq : FilterKnown p txns
      = txns.filter (fun h => (mapGet p.Txns h).isNone) := by
    rw [FilterKnown, foldl_append_if (fun h => (mapGet p.Txns h).isSome) txns []]
    simp only [List.nil_append]
    apply List.filter_congr
    intro h _
    cases mapGet p.Txns h <;> rfl
  exact ⟨heq, heq ▸ List.filter_sublist _⟩

theorem refreshEntry_getD_bounds (bc : Blockchain)
    (now checkPeriod maxAge : Int) (v : UnconfirmedTxn)
    (hr : v.Received ≤ now) (hc : v.Checked ≤ now) :
    ((refreshEntry bc now checkPeriod maxAge v).getD v).Received ≤ now
    ∧ ((refreshEntry bc now checkPeriod maxAge v).getD v).Checked ≤ now := by
  unfold refreshEntry
  split_ifs <;> simp [hr, hc]

theorem refreshEntry_getD_mono (bc : Blockchain)
    (now checkPeriod maxAge : Int) (v : UnconfirmedTxn)
    (hc : v.Checked ≤ now) :
    v.Received ≤ ((refreshEntry bc now checkPeriod maxAge v).getD v).Received
    ∧ v.Checked ≤ ((refreshEntry bc now checkPeriod maxAge v).getD v).Checked := by
  unfold refreshEntry
  split_ifs <;> simp [hc]

theorem applyOp_stamped {op : Op} {now : Int} {p : UnconfirmedTxnPool}
    (hst : stamped p now) : stamped (applyOp op now p) now := by
  cases op with
  | record bc t addrs maxSize burnFactor =>
    show stamped (RecordTxn bc t addrs maxSize burnFactor now p).2 now
    rcases hv : VerifyTransaction bc t maxSize burnFactor with _ | e
    · rcases hc : bc.verifyTransaction t with _ | e
      · rcases hg : mapGet p.Txns t.hash with _ | ut
        · simp only [RecordTxn, hv, hc, hg]
          intro kt hkt
          rcases mem_mapInsert hkt with hkt | hkt
          · subst hkt
            simp [createUnconfirmedTxn]
          · exact hst kt hkt
        · simp only [RecordTxn, hv, hc, hg]
          intro kt hkt
          rcases mem_mapInsert hkt with hkt | hkt
          · subst hkt
            simp
          · exact hst kt hkt
      · simpa only [RecordTxn, hv, hc] using hst
    · simpa only [RecordTxn, hv] using hst
  | setAnnounced h tm =>
    show stamped (SetAnnounced p h tm) now
    rcases hg : mapGet p.Txns h with _ | tx
    · simpa only [SetAnnounced, hg] using hst
    · simp only [SetAnnounced, hg]
      intro kt hkt
      rcases mem_mapInsert hkt with hkt | hkt
      · subst hkt
        simpa using hst (h, tx) (mapGet_mem hg)
      · exact hst kt hkt
  | removeTransactions txns =>
    intro kt hkt
    exact hst kt (mem_removeTxns hkt)
  | refresh bc checkPeriod maxAge =>
    show stamped (Refresh bc checkPeriod maxAge now p) now
    intro kt hkt
    have hkt' := mem_removeTxns (p := { p with Txns := p.Txns.map (fun kt =>
        (kt.1, (refreshEntry bc now checkPeriod maxAge kt.2).getD kt.2)) }) hkt
    rcases List.mem_map.mp hkt' with ⟨⟨k0, v⟩, hmem, hkv⟩
    rcases hst (k0, v) hmem with ⟨hr, hc⟩
    rw [← hkv]
    exact refreshEntry_getD_bounds bc now checkPeriod maxAge v hr hc

theorem applyOp_entries {op : Op} {now : Int} {p : UnconfirmedTxnPool}
    (hst : stamped p now) (k : SHA256) (e' : UnconfirmedTxn)
    (hk : mapGet (applyOp op now p).Txns k = some e') :
    (∃ e, mapGet p.Txns k = some e
      ∧ e.Received ≤ e'.Received ∧ e.Checked ≤ e'.Checked)
    ∨ (e'.Received = now ∧ e'.Checked = now) := by
  cases op with
  | record bc t addrs maxSize burnFactor =>
    rcases hv : VerifyTransaction bc t maxSize burnFactor with _ | e
    · rcases hc : bc.verifyTransaction t with _ | e
      · rcases hg : mapGet p.Txns t.hash with _ | ut
        · simp only [applyOp, RecordTxn, hv, hc, hg] at hk
          rw [mapGet_insert] at hk
          by_cases hth : t.hash = k
          · rw [if_pos hth] at hk
            cases Option.some.inj hk
            exact Or.inr ⟨rfl, rfl⟩
          · rw [if_neg hth] at hk
            exact Or.inl ⟨e', hk, le_refl _, le_refl _⟩
        · simp only [applyOp, RecordTxn, hv, hc, hg] at hk
          rw [mapGet_insert] at hk
          by_cases hth : t.hash = k
          · rw [if_pos hth] at hk
            cases Option.some.inj hk
            exact Or.inr ⟨rfl, rfl⟩
          · rw [if_neg hth] at hk
            exact Or.inl ⟨e', hk, le_refl _, le_refl _⟩
      · simp only [applyOp, RecordTxn, hv, hc] at hk
        exact Or.inl ⟨e', hk, le_refl _, le_refl _⟩
    · simp only [applyOp, RecordTxn, hv] at hk
      exact Or.inl ⟨e', hk, le_refl _, le_refl _⟩
  | setAnnounced h tm =>
    rcases hg : mapGet p.Txns h with _ | tx
    · simp only [applyOp, SetAnnounced, hg] at hk
      exact Or.inl ⟨e', hk, le_refl _, le_refl _⟩
    · simp only [applyOp, SetAnnounced, hg] at hk
      rw [mapGet_insert] at hk
      by_cases hth : h = k
      · rw [if_pos hth] at hk
        cases Option.some.inj hk
        subst hth
        exact Or.inl ⟨tx, hg, le_refl _, le_refl _⟩
      · rw [if_neg hth] at hk
        exact Or.inl ⟨e', hk, le_refl _, le_refl _⟩
  | removeTransactions txns =>
    rcases removeTxns_get p (txns.map Transaction.hash) k with ⟨h1, _⟩
    simp only [applyOp, RemoveTransactions] at hk
    rw [h1] at hk
    by_cases hmem : k ∈ txns.map Transaction.hash
    · rw [if_pos hmem] at hk
      cases hk
    · rw [if_neg hmem] at hk
      exact Or.inl ⟨e', hk, le_refl _, le_refl _⟩
  | refresh bc checkPeriod maxAge =>
    rcases removeTxns_get
        { p with Txns := p.Txns.map (fun kt =>
            (kt.1, (refreshEntry bc now checkPeriod maxAge kt.2).getD kt.2)) }
        ((p.Txns.filter (fun kt =>
            (refreshEntry bc now checkPeriod maxAge kt.2).isNone)).map
          (fun kt => kt.1)) k with ⟨h1, _⟩
    simp only [applyOp, Refresh] at hk
    rw [h1, mapGet_refresh_map] at hk
    by_cases hmem : k ∈ (p.Txns.filter (fun kt =>
        (refreshEntry bc now checkPeriod maxAge kt.2).isNone)).map
          (fun kt => kt.1)
    · rw [if_pos hmem] at hk
      cases hk
    · rw [if_neg hmem] at hk
      rcases hg : mapGet p.Txns k with _ | v
      · rw [hg] at hk
        cases hk
      · rw [hg] at hk
        have hve := Option.some.inj hk
        rcases hst (k, v) (mapGet_mem hg) with ⟨_, hc⟩
        rcases refreshEntry_getD_mono bc now checkPeriod maxAge v hc
          with ⟨hr', hc'⟩
        exact Or.inl ⟨v, rfl, hve ▸ hr', hve ▸ hc'⟩

theorem runOps_entries (l : List (Op × Int)) (bound : Int)
    (p : UnconfirmedTxnPool) (hst : stamped p bound)
    (hchain : List.Chain' (· ≤ ·) (bound :: l.map Prod.snd)) :
    ∀ k e', mapGet (runOps l p).Txns k = some e' →
      (∃ e, mapGet p.Txns k = some e
        ∧ e.Received ≤ e'.Received ∧ e.Checked ≤ e'.Checked)
      ∨ (bound ≤ e'.Received ∧ bound ≤ e'.Checked) := by
  induction l generalizing p bound with
  | nil =>
    intro k e' hk
    exact Or.inl ⟨e', hk, le_refl _, le_refl _⟩
  | cons oi rest ih =>
    intro k e' hk
    obtain ⟨op, t₀⟩ := oi
    rw [List.map_cons] at hchain
    rcases List.chain'_cons.mp hchain with ⟨hbt, hchain'⟩
    have hst₀ : stamped p t₀ := fun kt hkt =>
      ⟨le_trans (hst kt hkt).1 hbt, le_trans (hst kt hkt).2 hbt⟩
    have hrun : runOps ((op, t₀) :: rest) p
        = runOps rest (applyOp op t₀ p) := rfl
    rw [hrun] at hk
    have hst₁ : stamped (applyOp op t₀ p) t₀ := applyOp_stamped hst₀
    rcases ih t₀ (applyOp op t₀ p) hst₁ hchain' k e' hk with
      ⟨e₁, hg₁, hr₁, hc₁⟩ | ⟨hr', hc'⟩
    · rcases applyOp_entries hst₀ k e₁ hg₁ with
        ⟨e₀, hg₀, hr₀, hc₀⟩ | ⟨hre, hce⟩
      · exact Or.inl ⟨e₀, hg₀, le_trans hr₀ hr₁, le_trans hc₀ hc₁⟩
      · exact Or.inr ⟨le_trans hbt (hre ▸ hr₁), le_trans hbt (hce ▸ hc₁)⟩
    · exact Or.inr ⟨le_trans hbt hr', le_trans hbt hc'⟩

/-- Claim C9: across any sequence of pool operations whose observed
clock values are non-decreasing (and start no earlier than every stored
timestamp), an entry's `Received` and `Checked` timestamps never
decrease: re-admission sets both to the current `now`, `Refresh` may
only advance `Checked` to `now`, and no operation sets either field to
an earlier value. -/
theorem timestamps_monotone (l : List (Op × Int)) (bound : Int)
    (p : UnconfirmedTxnPool) (hst : stamped p bound)
    (hchain : List.Chain' (· ≤ ·) (bound :: l.map Prod.snd))
    (k : SHA256) (e e' : UnconfirmedTxn)
    (hbefore : mapGet p.Txns k = some e)
    (hafter : mapGet (runOps l p).Txns k = some e') :
    e.Received ≤ e'.Received ∧ e.Checked ≤ e'.Checked := by
  rcases runOps_entries l bound p hst hchain k e' hafter with
    ⟨e₀, hg₀, hr, hc⟩ | ⟨hr, hc⟩
  · rw [hbefore] at hg₀
    cases Option.some.inj hg₀
    exact ⟨hr, hc⟩
  · rcases hst (k, e) (mapGet_mem hbefore) with ⟨hre, hce⟩
    exact ⟨le_trans hre hr, le_trans hce hc⟩

/-- Witness for C9: re-recording `tx1` at time 5 into a pool stamped at
time 0 advances the entry's timestamps from 0 to 5. -/
theorem timestamps_monotone_witness :
    ({ Txn := tx1, Received := 0, Checked := 0, Announced := 0 }
        : UnconfirmedTxn).Received
      ≤ ({ Txn := tx1, Received := 5, Checked := 5, Announced := 0 }
        : UnconfirmedTxn).Received
    ∧ ({ Txn := tx1, Received := 0, Checked := 0, Announced := 0 }
        : UnconfirmedTxn).Checked
      ≤ ({ Txn := tx1, Received := 5, Checked := 5, Announced := 0 }
        : UnconfirmedTxn).Checked :=
  timestamps_monotone [(Op.record bcOk tx1 [] 10 0, 5)] 0 pool₀
    (by simp [stamped, pool₀]) (by simp) tx1.hash
    { Txn := tx1, Received := 0, Checked := 0, Announced := 0 }
    { Txn := tx1, Received := 5, Checked := 5, Announced := 0 }
    (by decide) (by decide)

end Unconfirmed
